import Mathlib

/-!
Verification of the SpectralDev spectral-resynthesis core against its
natural-language specification.

The definitions below are a shallow embedding of the C++ sources:

* `CircularSampleBuffer` — `inc/SpctCircularBuffer.h` (the `VIEW_SIZE`/`clear_arrays`
  revision, the one with `m_ringbuffer_index &= ~MAX_BUFFER_SIZE`);
* `WTOscillator`-level functions — the `WTOscillator` class of `main.cpp`
  (glide revision with `IncAmpComparison` quadrants);
* `ResynthOscs.tune_oscillators_to_fft` — `inc/SpctOscillatorStack.h`;
* `calculate_max_map` — `inc/SpctProcessingFunctions.h`;
* `BufferManager.process_daw_chunk` — `inc/SpctBufferManager.h` (the revision taking
  the shared circular buffer / oscillator / sync-primitive pointers);
* `InstanceController` operations — `src/SpctInstanceController.cpp` and the
  templated controller revision (`unnamed/part_010`).

`float`/`double` values are embedded as exact rationals (`ℚ`), `size_t` as `ℕ`.
Machine floating-point rounding is outside the model; every claim settled here is
about the exact-arithmetic content of the algorithms.
-/

namespace SpectralDev

/-- `std::clamp(v, lo, hi)`: `v < lo ? lo : (hi < v ? hi : v)` (the C++ definition,
spelled out so that it is also meaningful when `hi < lo`). -/
def clampQ (v lo hi : ℚ) : ℚ :=
  if v < lo then lo else if hi < v then hi else v

/-! ## Circular buffer (`inc/SpctCircularBuffer.h`)

`MAX_BUFFER_SIZE` is a power of two `2 ^ d`; `VIEW_SIZE = MAX_BUFFER_SIZE / 2`.
`m_ringbuffer_index &= ~MAX_BUFFER_SIZE` clears exactly bit `d` of the index
(all other bits of `~MAX_BUFFER_SIZE` are set). -/

/-- `x &&& ~~~(2 ^ d)` on `size_t`: clear bit `d` of `x`. -/
def clearBit (d x : ℕ) : ℕ := if x.testBit d then x - 2 ^ d else x

/-- Cursor-level content of `CircularSampleBuffer::advance` for buffer size `2 ^ d`:
increment, compare against `VIEW_SIZE = 2 ^ d / 2`, mask out the buffer-size bit.
Returns the new cursor and the `do_transformation` flag. -/
def advanceIdx (d i : ℕ) : ℕ × Bool :=
  let i' := i + 1
  (clearBit d i', i' == 2 ^ d / 2)

/-- State of `CircularSampleBuffer<T, 2 ^ d>`: the cursor and the two arrays
(`m_in_array : T[N]`, `m_out_array : complex<T>[N]`, embedded as functions). -/
structure CircularSampleBuffer where
  ringbufferIndex : ℕ
  inArray : ℕ → ℚ
  outArray : ℕ → ℚ × ℚ

namespace CircularSampleBuffer

/-- `clear_arrays()`: zero both arrays, cursor back to `0`. -/
def clear_arrays (_b : CircularSampleBuffer) : CircularSampleBuffer :=
  { ringbufferIndex := 0, inArray := fun _ => 0, outArray := fun _ => (0, 0) }

/-- `fill_input(v)`: `m_in_array[m_ringbuffer_index] = v * m_window_compensation`. -/
def fill_input (windowCompensation : ℚ) (b : CircularSampleBuffer) (v : ℚ) :
    CircularSampleBuffer :=
  { b with inArray := Function.update b.inArray b.ringbufferIndex (v * windowCompensation) }

/-- `advance()` on the buffer (see `advanceIdx`). -/
def advance (d : ℕ) (b : CircularSampleBuffer) : CircularSampleBuffer × Bool :=
  let r := advanceIdx d b.ringbufferIndex
  ({ b with ringbufferIndex := r.1 }, r.2)

end CircularSampleBuffer

/-- The buffer state after `k` consecutive `advance()` calls. -/
def advanceIter (d : ℕ) (b : CircularSampleBuffer) : ℕ → CircularSampleBuffer
  | 0 => b
  | k + 1 => (CircularSampleBuffer.advance d (advanceIter d b k)).1

/-- The boolean returned by the `(k + 1)`-st `advance()` call (i.e. after `k` previous calls). -/
def nthTrigger (d : ℕ) (b : CircularSampleBuffer) (k : ℕ) : Bool :=
  (CircularSampleBuffer.advance d (advanceIter d b k)).2

/-- How many of the next `k` consecutive `advance()` calls return `true`. -/
def advanceTriggerCount (d : ℕ) (b : CircularSampleBuffer) : ℕ → ℕ
  | 0 => 0
  | k + 1 => advanceTriggerCount d b k + (if nthTrigger d b k then 1 else 0)

/-! ### Ring-buffer lemmas -/

theorem clearBit_succ_lt {d i : ℕ} (h : i < 2 ^ d) : clearBit d (i + 1) < 2 ^ d := by
  unfold clearBit
  rcases Nat.lt_or_ge (i + 1) (2 ^ d) with hlt | hge
  · rw [Nat.testBit_eq_false_of_lt hlt]
    simpa using hlt
  · have heq : i + 1 = 2 ^ d := by omega
    rw [heq, Nat.testBit_two_pow_self]
    simp

theorem clearBit_succ_eq_mod {d i : ℕ} (h : i < 2 ^ d) :
    clearBit d (i + 1) = (i + 1) % 2 ^ d := by
  unfold clearBit
  rcases Nat.lt_or_ge (i + 1) (2 ^ d) with hlt | hge
  · rw [Nat.testBit_eq_false_of_lt hlt, Nat.mod_eq_of_lt hlt]
    simp
  · have heq : i + 1 = 2 ^ d := by omega
    rw [heq, Nat.testBit_two_pow_self]
    simp

theorem advanceIter_index {d : ℕ} (b : CircularSampleBuffer)
    (h : b.ringbufferIndex < 2 ^ d) (k : ℕ) :
    (advanceIter d b k).ringbufferIndex = (b.ringbufferIndex + k) % 2 ^ d ∧
      (advanceIter d b k).ringbufferIndex < 2 ^ d := by
  induction k with
  | zero => simpa [advanceIter] using ⟨(Nat.mod_eq_of_lt h).symm, h⟩
  | succ k ih =>
    obtain ⟨hv, hlt⟩ := ih
    constructor
    · show clearBit d ((advanceIter d b k).ringbufferIndex + 1) = _
      rw [clearBit_succ_eq_mod hlt, hv, Nat.mod_add_mod,
        show b.ringbufferIndex + k + 1 = b.ringbufferIndex + (k + 1) by ring]
    · exact clearBit_succ_lt hlt

theorem nthTrigger_iff {d : ℕ} (hd : 1 ≤ d) (b : CircularSampleBuffer)
    (h : b.ringbufferIndex < 2 ^ d) (k : ℕ) :
    nthTrigger d b k = true ↔ (b.ringbufferIndex + k + 1) % 2 ^ d = 2 ^ d / 2 := by
  obtain ⟨hv, hlt⟩ := advanceIter_index b h k
  unfold nthTrigger CircularSampleBuffer.advance advanceIdx
  simp only [beq_iff_eq]
  rw [hv]
  have hhalf : 2 ^ d / 2 = 2 ^ (d - 1) := by
    conv_lhs => rw [show d = (d - 1) + 1 by omega]
    rw [pow_succ, Nat.mul_div_cancel _ (by norm_num)]
  have hhalfpos : 0 < 2 ^ d / 2 := by rw [hhalf]; positivity
  have hhalflt : 2 ^ d / 2 < 2 ^ d := Nat.div_lt_self (by positivity) (by norm_num)
  set m := (b.ringbufferIndex + k) % 2 ^ d with hm
  have hmlt : m < 2 ^ d := Nat.mod_lt _ (by positivity)
  have hrhs : (b.ringbufferIndex + k + 1) % 2 ^ d = (m + 1) % 2 ^ d := by
    rw [hm, Nat.mod_add_mod]
  rw [hrhs]
  rcases Nat.lt_or_ge (m + 1) (2 ^ d) with hlt' | hge'
  · rw [Nat.mod_eq_of_lt hlt']
  · have : m + 1 = 2 ^ d := by omega
    rw [this]
    simp only [Nat.mod_self]
    omega

theorem advanceTriggerCount_eq_card (d : ℕ) (b : CircularSampleBuffer) (k : ℕ) :
    advanceTriggerCount d b k =
      ((Finset.range k).filter (fun j => nthTrigger d b j = true)).card := by
  induction k with
  | zero => simp [advanceTriggerCount]
  | succ k ih =>
    rw [advanceTriggerCount, ih, Finset.range_succ, Finset.filter_insert]
    by_cases h : nthTrigger d b k = true
    · have hk : k ∉ (Finset.range k).filter (fun j => nthTrigger d b j = true) := by simp
      simp [h, Finset.card_insert_of_not_mem hk]
    · simp [h]

theorem mod_window_unique {N r t : ℕ} (hr : r < N) (ht : t < N) :
    ∀ k < N, ((r + k) % N = t ↔ (r + k = t ∨ r + k = t + N)) := by
  intro k hk
  rcases Nat.lt_or_ge (r + k) N with hlt | hge
  · rw [Nat.mod_eq_of_lt hlt]
    omega
  · rw [Nat.mod_eq_sub_mod hge, Nat.mod_eq_of_lt (by omega)]
    omega

theorem count_residue {N a t : ℕ} (hN : 0 < N) (ht : t < N) :
    ((Finset.range N).filter (fun k => (a + k) % N = t)).card = 1 := by
  have hr : a % N < N := Nat.mod_lt _ hN
  have hpred : ∀ k < N, ((a + k) % N = t ↔ (a % N + k = t ∨ a % N + k = t + N)) := by
    intro k hk
    have : (a + k) % N = (a % N + k) % N := (Nat.mod_add_mod a N k).symm
    rw [this]
    exact mod_window_unique hr ht k hk
  set k0 : ℕ := if a % N ≤ t then t - a % N else t + N - a % N with hk0
  have hk0lt : k0 < N := by rw [hk0]; split <;> omega
  rw [Finset.card_eq_one]
  refine ⟨k0, Finset.eq_singleton_iff_unique_mem.mpr ⟨?_, ?_⟩⟩
  · rw [Finset.mem_filter, Finset.mem_range]
    refine ⟨hk0lt, ?_⟩
    rw [hpred k0 hk0lt, hk0]
    split <;> omega
  · intro x hx
    rw [Finset.mem_filter, Finset.mem_range] at hx
    obtain ⟨hxlt, hxeq⟩ := hx
    rw [hpred x hxlt] at hxeq
    rw [hk0]
    split <;> omega

/-- Helper: a freshly cleared buffer (used by concrete counterexamples and witnesses). -/
def clearedBuffer : CircularSampleBuffer :=
  { ringbufferIndex := 0, inArray := fun _ => 0, outArray := fun _ => (0, 0) }

/-- C10: the ring-buffer cursor invariant.  From any cursor `< N = 2 ^ d`:
`clear_arrays` resets the cursor to `0`; `advance` masks the incremented cursor back
into `[0, N)` (it is exactly `+1 mod N`); hence `fill_input` writes only at the
in-bounds position `ringbufferIndex < N` and changes no other slot of `m_in_array`. -/
theorem C10_cursor_always_in_bounds (d : ℕ) (b : CircularSampleBuffer) (w v : ℚ)
    (h : b.ringbufferIndex < 2 ^ d) :
    ((CircularSampleBuffer.advance d b).1.ringbufferIndex < 2 ^ d) ∧
      ((CircularSampleBuffer.advance d b).1.ringbufferIndex
        = (b.ringbufferIndex + 1) % 2 ^ d) ∧
      ((CircularSampleBuffer.clear_arrays b).ringbufferIndex = 0) ∧
      (b.ringbufferIndex < 2 ^ d ∧
        ∀ j, j ≠ b.ringbufferIndex →
          (CircularSampleBuffer.fill_input w b v).inArray j = b.inArray j) := by
  refine ⟨clearBit_succ_lt h, clearBit_succ_eq_mod h, rfl, h, ?_⟩
  intro j hj
  simp [CircularSampleBuffer.fill_input, Function.update, hj]

/-- Witness for `C10_cursor_always_in_bounds` at `d = 4`, the cleared buffer. -/
theorem C10_witness :
    clearedBuffer.ringbufferIndex < 2 ^ 4 ∧
      ((CircularSampleBuffer.advance 4 clearedBuffer).1.ringbufferIndex < 2 ^ 4) := by
  refine ⟨by norm_num [clearedBuffer], ?_⟩
  exact (C10_cursor_always_in_bounds 4 clearedBuffer 1 0 (by norm_num [clearedBuffer])).1

/-- C2 (corrected): for a cursor `< N = 2 ^ d` (`d ≥ 1`), `advance()` increments the
cursor by one modulo `N` and returns `true` exactly when the incremented cursor equals
the view size `N / 2`; consequently it returns `true` exactly once in every `N`
(not `N / 2`) consecutive calls. -/
theorem C2_advance_wraps_once_per_buffer (d : ℕ) (b : CircularSampleBuffer)
    (hd : 1 ≤ d) (h : b.ringbufferIndex < 2 ^ d) :
    ((CircularSampleBuffer.advance d b).1.ringbufferIndex
        = (b.ringbufferIndex + 1) % 2 ^ d) ∧
      ((CircularSampleBuffer.advance d b).2 = true ↔
        b.ringbufferIndex + 1 = 2 ^ d / 2) ∧
      advanceTriggerCount d b (2 ^ d) = 1 := by
  refine ⟨clearBit_succ_eq_mod h, ?_, ?_⟩
  · unfold CircularSampleBuffer.advance advanceIdx
    simp
  · rw [advanceTriggerCount_eq_card]
    have hcong : ∀ j ∈ Finset.range (2 ^ d),
        (nthTrigger d b j = true) =
          ((b.ringbufferIndex + 1 + j) % 2 ^ d = 2 ^ d / 2) := by
      intro j _
      rw [nthTrigger_iff hd b h j]
      have : b.ringbufferIndex + j + 1 = b.ringbufferIndex + 1 + j := by ring
      rw [this]
    rw [Finset.filter_congr fun j hj => by rw [hcong j hj]]
    exact count_residue (by positivity)
      (Nat.div_lt_self (by positivity) (by norm_num))

/-- Witness for `C2_advance_wraps_once_per_buffer` at `d = 4`, the cleared buffer. -/
theorem C2_witness :
    (1 ≤ 4 ∧ clearedBuffer.ringbufferIndex < 2 ^ 4) ∧
      advanceTriggerCount 4 clearedBuffer (2 ^ 4) = 1 :=
  ⟨⟨by norm_num, by norm_num [clearedBuffer]⟩,
    (C2_advance_wraps_once_per_buffer 4 clearedBuffer (by norm_num)
      (by norm_num [clearedBuffer])).2.2⟩

/-- C2 counterexample: the claim says `advance()` returns `true` once in every
`N / 2` consecutive calls.  For `N = 16` (`d = 4`) and a cleared buffer, the
`N / 2 = 8` consecutive calls following the first `8` calls return no `true` at all
(and a full cycle of `16` calls returns `true` only once, not twice). -/
theorem C2_counterexample :
    advanceTriggerCount 4 (advanceIter 4 clearedBuffer 8) 8 = 0 ∧
      advanceTriggerCount 4 clearedBuffer 16 = 1 := by
  constructor <;> decide

/-! ## Wavetable oscillator (`WTOscillator` in `main.cpp`)

The oscillator template parameter is the wavetable size `W` (`WAVETABLE_SIZE`);
`INTERNAL_SIZE = W - 1`.  All floating point fields are embedded as `ℚ`. -/

structure OscState where
  tableIndex : ℚ
  indexIncrement : ℚ
  prevIndexIncrement : ℚ
  amplitude : ℚ
  prevAmplitude : ℚ
  glideResolution : ℚ
  glideFractionInc : ℚ
  glideFractionAmp : ℚ
  upperLimitInc : ℚ
  upperLimitAmp : ℚ
  lowerLimitInc : ℚ
  lowerLimitAmp : ℚ
  samplingFreq : ℚ
  nyquistFreq : ℚ
  invSamplingFreq : ℚ
  deriving DecidableEq

/-- The default member initializers of `WTOscillator` (`m_glide_resolution = 0.01`,
`m_sampling_freq = 44100`, everything else zero). -/
def defaultOsc : OscState where
  tableIndex := 0
  indexIncrement := 0
  prevIndexIncrement := 0
  amplitude := 0
  prevAmplitude := 0
  glideResolution := 1 / 100
  glideFractionInc := 0
  glideFractionAmp := 0
  upperLimitInc := 0
  upperLimitAmp := 0
  lowerLimitInc := 0
  lowerLimitAmp := 0
  samplingFreq := 44100
  nyquistFreq := 22050
  invSamplingFreq := 1 / 44100

/-- `WTOscillator(sampling_freq, wt_ptr)`: the constructor sets `m_sampling_freq` and the
dependent member initializers `m_nyquist_freq = fs / 2`, `m_inv_sampling_freq = 1 / fs`. -/
def mkOsc (fs : ℚ) : OscState :=
  { defaultOsc with samplingFreq := fs, nyquistFreq := fs / 2, invSamplingFreq := 1 / fs }

namespace WTOscillator

/-- `reset(sampling_freq)` of `WTOscillator`.  Note: the source leaves
`m_prev_amplitude` and `m_glide_resolution` untouched. -/
def reset (s : OscState) (fs : ℚ) : OscState :=
  { s with
    amplitude := 0
    tableIndex := 0
    indexIncrement := 0
    prevIndexIncrement := 0
    samplingFreq := fs
    nyquistFreq := fs / 2
    invSamplingFreq := 1 / fs
    lowerLimitInc := 0
    lowerLimitAmp := 0
    upperLimitInc := 0
    upperLimitAmp := 0
    glideFractionInc := 0
    glideFractionAmp := 0 }

/-- The index increment computed in `tune_and_set_amp`:
`INTERNAL_SIZE * clamp(to_freq, 0, nyquist) * m_inv_sampling_freq`. -/
def incrementTarget (W : ℕ) (s : OscState) (toFreq : ℚ) : ℚ :=
  ((W : ℚ) - 1) * clampQ toFreq 0 s.nyquistFreq * s.invSamplingFreq

/-- `tune_and_set_amp(to_freq, amplitude)`: clamp the frequency, compute the
increment target and glide fractions, update the glide limits by the
`IncAmpComparison` quadrant, snapshot the previous target values. -/
def tune_and_set_amp (W : ℕ) (s : OscState) (toFreq amplitude : ℚ) : OscState :=
  let indexIncr := incrementTarget W s toFreq
  let indexIncrFrac := (indexIncr - s.prevIndexIncrement) * s.glideResolution
  let ampFrac := (amplitude - s.prevAmplitude) * s.glideResolution
  let s1 :=
    if s.prevIndexIncrement < indexIncr then
      if s.prevAmplitude < amplitude then
        -- BOTH_GREATER: m_upper_limit = (indexIncr, amplitude)
        { s with upperLimitInc := indexIncr, upperLimitAmp := amplitude }
      else
        -- FREQ_GREATER: m_upper_limit.first = indexIncr; m_lower_limit.second = amplitude
        { s with upperLimitInc := indexIncr, lowerLimitAmp := amplitude }
    else
      if s.prevAmplitude < amplitude then
        -- AMP_GREATER: m_lower_limit.first = indexIncr; m_upper_limit.second = amplitude
        { s with lowerLimitInc := indexIncr, upperLimitAmp := amplitude }
      else
        -- BOTH_LESS_OR_EQ: m_lower_limit = (indexIncr, amplitude)
        { s with lowerLimitInc := indexIncr, lowerLimitAmp := amplitude }
  { s1 with
    prevIndexIncrement := indexIncr
    prevAmplitude := amplitude
    glideFractionInc := indexIncrFrac
    glideFractionAmp := ampFrac }

/-- `static_cast<size_t>(m_table_index)` (truncation; the table index is nonnegative in
every reachable state). -/
def currentIndex (s : OscState) : ℕ := (⌊s.tableIndex⌋).toNat

/-- `advance_and_receive_output()`: read `table[idx]` and `table[idx + 1]`, linearly
interpolate, advance the phase by the increment with wrap-by-subtraction at
`INTERNAL_SIZE = W - 1`, glide-step the increment and the amplitude through
`std::clamp` with the stored limits, and return `output * m_amplitude` (the updated
amplitude). -/
def advance_and_receive_output (W : ℕ) (table : ℕ → ℚ) (s : OscState) : OscState × ℚ :=
  let idx := currentIndex s
  let valueA := table idx
  let valueB := table (idx + 1)
  let valueFraction := s.tableIndex - (idx : ℚ)
  let output := valueA + valueFraction * (valueB - valueA)
  let ti := s.tableIndex + s.indexIncrement
  let ti1 := if ((W : ℚ) - 1) ≤ ti then ti - ((W : ℚ) - 1) else ti
  let inc1 := clampQ (s.indexIncrement + s.glideFractionInc) s.lowerLimitInc s.upperLimitInc
  let amp1 := clampQ (s.amplitude + s.glideFractionAmp) s.lowerLimitAmp s.upperLimitAmp
  ({ s with tableIndex := ti1, indexIncrement := inc1, amplitude := amp1 }, output * amp1)

/-- `set_glide_steps(glide_steps)`: clamp into `[1, 65535]`, store the reciprocal. -/
def set_glide_steps (s : OscState) (glideSteps : ℕ) : OscState :=
  let g := min (max glideSteps 1) 65535
  { s with glideResolution := 1 / (g : ℚ) }

end WTOscillator

/-- The oscillator state after `k` consecutive `advance_and_receive_output()` calls. -/
def stepIter (W : ℕ) (table : ℕ → ℚ) : ℕ → OscState → OscState
  | 0, s => s
  | k + 1, s => (WTOscillator.advance_and_receive_output W table (stepIter W table k s)).1

/-! ### Glide analysis -/

/-- `k`-fold application of one glide step `x ↦ clamp(x + fr, lo, hi)`. -/
def clampIter (fr lo hi : ℚ) : ℕ → ℚ → ℚ
  | 0, x => x
  | k + 1, x => clampQ (clampIter fr lo hi k x + fr) lo hi

theorem stepIter_preserves (W : ℕ) (table : ℕ → ℚ) (k : ℕ) (s : OscState) :
    (stepIter W table k s).glideFractionInc = s.glideFractionInc ∧
      (stepIter W table k s).glideFractionAmp = s.glideFractionAmp ∧
      (stepIter W table k s).lowerLimitInc = s.lowerLimitInc ∧
      (stepIter W table k s).upperLimitInc = s.upperLimitInc ∧
      (stepIter W table k s).lowerLimitAmp = s.lowerLimitAmp ∧
      (stepIter W table k s).upperLimitAmp = s.upperLimitAmp := by
  induction k with
  | zero => exact ⟨rfl, rfl, rfl, rfl, rfl, rfl⟩
  | succ k ih => exact ih

theorem stepIter_indexIncrement (W : ℕ) (table : ℕ → ℚ) (k : ℕ) (s : OscState) :
    (stepIter W table k s).indexIncrement =
      clampIter s.glideFractionInc s.lowerLimitInc s.upperLimitInc k s.indexIncrement := by
  induction k with
  | zero => rfl
  | succ k ih =>
    show clampQ ((stepIter W table k s).indexIncrement + (stepIter W table k s).glideFractionInc)
        (stepIter W table k s).lowerLimitInc (stepIter W table k s).upperLimitInc = _
    obtain ⟨h1, _, h3, h4, _, _⟩ := stepIter_preserves W table k s
    rw [h1, h3, h4, ih]
    rfl

theorem stepIter_amplitude (W : ℕ) (table : ℕ → ℚ) (k : ℕ) (s : OscState) :
    (stepIter W table k s).amplitude =
      clampIter s.glideFractionAmp s.lowerLimitAmp s.upperLimitAmp k s.amplitude := by
  induction k with
  | zero => rfl
  | succ k ih =>
    show clampQ ((stepIter W table k s).amplitude + (stepIter W table k s).glideFractionAmp)
        (stepIter W table k s).lowerLimitAmp (stepIter W table k s).upperLimitAmp = _
    obtain ⟨_, h2, _, _, h5, h6⟩ := stepIter_preserves W table k s
    rw [h2, h5, h6, ih]
    rfl

theorem clampIter_up (fr lo t a : ℚ) (hlo : lo ≤ a) (hle : a ≤ t) (hfr : 0 ≤ fr) :
    ∀ k : ℕ, clampIter fr lo t k a = min (a + k * fr) t := by
  intro k
  induction k with
  | zero => simp [clampIter, min_eq_left hle]
  | succ k ih =>
    have hkfr : 0 ≤ (k : ℚ) * fr := by positivity
    rw [clampIter, ih]
    unfold clampQ
    have hminlo : lo ≤ min (a + k * fr) t + fr := by
      have : a ≤ min (a + k * fr) t := le_min (by linarith) hle
      linarith
    rw [if_neg (by linarith)]
    rcases le_or_lt (min (a + k * fr) t + fr) t with hv | hv
    · rw [if_neg (by linarith)]
      rcases min_cases (a + k * fr) t with ⟨hmeq, hmle⟩ | ⟨hmeq, hmle⟩
      · rw [hmeq] at hv ⊢
        rw [min_eq_left (by push_cast; linarith)]
        push_cast
        ring
      · rw [hmeq] at hv ⊢
        have hfr0 : fr = 0 := by linarith
        subst hfr0
        rw [min_eq_right (by push_cast; linarith)]
        ring
    · rw [if_pos hv]
      rcases min_cases (a + k * fr) t with ⟨hmeq, hmle⟩ | ⟨hmeq, hmle⟩
      · rw [hmeq] at hv
        rw [min_eq_right (by push_cast; linarith)]
      · rw [min_eq_right (by push_cast; linarith)]

theorem clampIter_down (fr t hi a : ℚ) (hhi : a ≤ hi) (hle : t ≤ a) (hfr : fr ≤ 0) :
    ∀ k : ℕ, clampIter fr t hi k a = max (a + k * fr) t := by
  intro k
  induction k with
  | zero => simp [clampIter, max_eq_left hle]
  | succ k ih =>
    have hkfr : (k : ℚ) * fr ≤ 0 := mul_nonpos_of_nonneg_of_nonpos (by positivity) hfr
    rw [clampIter, ih]
    unfold clampQ
    have hmaxhi : max (a + k * fr) t + fr ≤ hi := by
      have : max (a + k * fr) t ≤ a := max_le (by linarith) hle
      linarith
    rcases le_or_lt t (max (a + k * fr) t + fr) with hv | hv
    · rw [if_neg (by linarith), if_neg (by linarith)]
      rcases max_cases (a + k * fr) t with ⟨hmeq, hmge⟩ | ⟨hmeq, hmge⟩
      · rw [hmeq] at hv ⊢
        rw [max_eq_left (by push_cast; linarith)]
        push_cast
        ring
      · rw [hmeq] at hv ⊢
        have hfr0 : fr = 0 := by linarith
        subst hfr0
        rw [max_eq_right (by push_cast; linarith)]
        ring
    · rw [if_pos (by linarith)]
      rcases max_cases (a + k * fr) t with ⟨hmeq, hmge⟩ | ⟨hmeq, hmge⟩
      · rw [hmeq] at hv
        rw [max_eq_right (by push_cast; linarith)]
      · rw [max_eq_right (by push_cast; linarith)]

theorem tune_fields (W : ℕ) (s : OscState) (f A : ℚ) :
    (WTOscillator.tune_and_set_amp W s f A).indexIncrement = s.indexIncrement ∧
      (WTOscillator.tune_and_set_amp W s f A).amplitude = s.amplitude ∧
      (WTOscillator.tune_and_set_amp W s f A).prevIndexIncrement
        = WTOscillator.incrementTarget W s f ∧
      (WTOscillator.tune_and_set_amp W s f A).prevAmplitude = A ∧
      (WTOscillator.tune_and_set_amp W s f A).glideFractionInc
        = (WTOscillator.incrementTarget W s f - s.prevIndexIncrement) * s.glideResolution ∧
      (WTOscillator.tune_and_set_amp W s f A).glideFractionAmp
        = (A - s.prevAmplitude) * s.glideResolution ∧
      ((s.prevIndexIncrement < WTOscillator.incrementTarget W s f →
          (WTOscillator.tune_and_set_amp W s f A).upperLimitInc
              = WTOscillator.incrementTarget W s f ∧
            (WTOscillator.tune_and_set_amp W s f A).lowerLimitInc = s.lowerLimitInc) ∧
        (¬ s.prevIndexIncrement < WTOscillator.incrementTarget W s f →
          (WTOscillator.tune_and_set_amp W s f A).lowerLimitInc
              = WTOscillator.incrementTarget W s f ∧
            (WTOscillator.tune_and_set_amp W s f A).upperLimitInc = s.upperLimitInc) ∧
        (s.prevAmplitude < A →
          (WTOscillator.tune_and_set_amp W s f A).upperLimitAmp = A ∧
            (WTOscillator.tune_and_set_amp W s f A).lowerLimitAmp = s.lowerLimitAmp) ∧
        (¬ s.prevAmplitude < A →
          (WTOscillator.tune_and_set_amp W s f A).lowerLimitAmp = A ∧
            (WTOscillator.tune_and_set_amp W s f A).upperLimitAmp = s.upperLimitAmp)) := by
  by_cases h1 : s.prevIndexIncrement < WTOscillator.incrementTarget W s f <;>
    by_cases h2 : s.prevAmplitude < A <;>
      simp [WTOscillator.tune_and_set_amp, h1, h2]

/-- C5 (corrected): from a *settled* oscillator state (the previous glide has completed:
the live increment and amplitude equal the previously snapshotted targets, and each lies
between its stored clamp limits), one `tune_and_set_amp(f, A)` with glide resolution
`1 / gs` followed by `k ≥ gs` consecutive `advance_and_receive_output()` calls brings the
index increment exactly to the increment target for `f` and the amplitude exactly to `A`
(in exact arithmetic), and at every intermediate step both values stay between their
start value and their target — the quadrant classification moves the limit on the
approached side to the target and leaves the other limit in place, so the clamp can
never overshoot. -/
theorem C5_glide_settles_and_never_overshoots (W gs k : ℕ) (table : ℕ → ℚ)
    (s : OscState) (f A : ℚ)
    (hgs : 1 ≤ gs) (hres : s.glideResolution = 1 / (gs : ℚ))
    (hsetI : s.indexIncrement = s.prevIndexIncrement)
    (hsetA : s.amplitude = s.prevAmplitude)
    (hloI : s.lowerLimitInc ≤ s.indexIncrement) (hupI : s.indexIncrement ≤ s.upperLimitInc)
    (hloA : s.lowerLimitAmp ≤ s.amplitude) (hupA : s.amplitude ≤ s.upperLimitAmp) :
    (gs ≤ k →
      (stepIter W table k (WTOscillator.tune_and_set_amp W s f A)).indexIncrement
          = WTOscillator.incrementTarget W s f ∧
        (stepIter W table k (WTOscillator.tune_and_set_amp W s f A)).amplitude = A) ∧
      (∀ j : ℕ,
        min s.indexIncrement (WTOscillator.incrementTarget W s f)
            ≤ (stepIter W table j (WTOscillator.tune_and_set_amp W s f A)).indexIncrement ∧
          (stepIter W table j (WTOscillator.tune_and_set_amp W s f A)).indexIncrement
            ≤ max s.indexIncrement (WTOscillator.incrementTarget W s f) ∧
          min s.amplitude A
            ≤ (stepIter W table j (WTOscillator.tune_and_set_amp W s f A)).amplitude ∧
          (stepIter W table j (WTOscillator.tune_and_set_amp W s f A)).amplitude
            ≤ max s.amplitude A) := by
  obtain ⟨hI, hA, hprevI, hprevA, hfrI, hfrA, hqI1, hqI2, hqA1, hqA2⟩ := tune_fields W s f A
  set s' := WTOscillator.tune_and_set_amp W s f A with hs'
  set t := WTOscillator.incrementTarget W s f with ht
  set a := s.indexIncrement with ha
  set b := s.amplitude with hb
  have hgsQ : (1 : ℚ) ≤ (gs : ℚ) := by exact_mod_cast hgs
  have hgspos : (0 : ℚ) < (gs : ℚ) := by linarith
  have hkcast : gs ≤ k → (gs : ℚ) ≤ (k : ℚ) := fun h => by exact_mod_cast h
  -- the increment component
  have hfrI' : s'.glideFractionInc = (t - a) * (1 / (gs : ℚ)) := by
    rw [hfrI, ← hsetI, hres]
  have hgsfrI : (gs : ℚ) * s'.glideFractionInc = t - a := by
    rw [hfrI']
    field_simp
  have hincAll : ∀ j : ℕ, (stepIter W table j s').indexIncrement =
      if a ≤ t then min (a + j * s'.glideFractionInc) t
      else max (a + j * s'.glideFractionInc) t := by
    intro j
    rw [stepIter_indexIncrement, hI]
    rcases lt_or_ge s.prevIndexIncrement t with hcase | hcase
    · obtain ⟨hup, hlo⟩ := hqI1 hcase
      rw [hup, hlo, if_pos (by linarith [hsetI])]
      exact clampIter_up _ _ _ _ hloI (by linarith [hsetI])
        (by rw [hfrI']; have : 0 ≤ t - a := by linarith [hsetI]
            positivity) j
    · obtain ⟨hlo, hup⟩ := hqI2 (not_lt.mpr hcase)
      rw [hup, hlo]
      have hta : t ≤ a := by linarith [hsetI]
      rcases eq_or_lt_of_le hta with heq | hlt
      · rw [if_pos (le_of_eq heq.symm)]
        have hfr0 : s'.glideFractionInc = 0 := by
          rw [hfrI', heq]
          ring
        rw [clampIter_down _ _ _ _ hupI hta (le_of_eq hfr0) j, hfr0, heq]
        simp
      · rw [if_neg (by linarith)]
        exact clampIter_down _ _ _ _ hupI hta
          (by rw [hfrI']
              have h0 : t - a ≤ 0 := by linarith
              have h1g : 0 ≤ 1 / (gs : ℚ) := by positivity
              nlinarith) j
  -- the amplitude component
  have hfrA' : s'.glideFractionAmp = (A - b) * (1 / (gs : ℚ)) := by
    rw [hfrA, ← hsetA, hres]
  have hgsfrA : (gs : ℚ) * s'.glideFractionAmp = A - b := by
    rw [hfrA']
    field_simp
  have hampAll : ∀ j : ℕ, (stepIter W table j s').amplitude =
      if b ≤ A then min (b + j * s'.glideFractionAmp) A
      else max (b + j * s'.glideFractionAmp) A := by
    intro j
    rw [stepIter_amplitude, hA]
    rcases lt_or_ge s.prevAmplitude A with hcase | hcase
    · obtain ⟨hup, hlo⟩ := hqA1 hcase
      rw [hup, hlo, if_pos (by linarith [hsetA])]
      exact clampIter_up _ _ _ _ hloA (by linarith [hsetA])
        (by rw [hfrA']; have : 0 ≤ A - b := by linarith [hsetA]
            positivity) j
    · obtain ⟨hlo, hup⟩ := hqA2 (not_lt.mpr hcase)
      rw [hup, hlo]
      have hta : A ≤ b := by linarith [hsetA]
      rcases eq_or_lt_of_le hta with heq | hlt
      · rw [if_pos (le_of_eq heq.symm)]
        have hfr0 : s'.glideFractionAmp = 0 := by
          rw [hfrA', heq]
          ring
        rw [clampIter_down _ _ _ _ hupA hta (le_of_eq hfr0) j, hfr0, heq]
        simp
      · rw [if_neg (by linarith)]
        exact clampIter_down _ _ _ _ hupA hta
          (by rw [hfrA']
              have h0 : A - b ≤ 0 := by linarith
              have h1g : 0 ≤ 1 / (gs : ℚ) := by positivity
              nlinarith) j
  constructor
  · intro hk
    have hkQ := hkcast hk
    constructor
    · rw [hincAll k]
      rcases le_or_lt a t with hat | hat
      · rw [if_pos hat]
        have hfr : 0 ≤ s'.glideFractionInc := by
          rw [hfrI']
          exact mul_nonneg (by linarith) (by positivity)
        have : t - a ≤ (k : ℚ) * s'.glideFractionInc := by
          rw [← hgsfrI]
          exact mul_le_mul_of_nonneg_right hkQ hfr
        rw [min_eq_right (by linarith)]
      · rw [if_neg (not_le.mpr hat)]
        have hfr : s'.glideFractionInc ≤ 0 := by
          rw [hfrI']
          exact mul_nonpos_iff.mpr (Or.inr ⟨by linarith, by positivity⟩)
        have : (k : ℚ) * s'.glideFractionInc ≤ t - a := by
          rw [← hgsfrI]
          exact mul_le_mul_of_nonpos_right hkQ hfr
        rw [max_eq_right (by linarith)]
    · rw [hampAll k]
      rcases le_or_lt b A with hat | hat
      · rw [if_pos hat]
        have hfr : 0 ≤ s'.glideFractionAmp := by
          rw [hfrA']
          exact mul_nonneg (by linarith) (by positivity)
        have : A - b ≤ (k : ℚ) * s'.glideFractionAmp := by
          rw [← hgsfrA]
          exact mul_le_mul_of_nonneg_right hkQ hfr
        rw [min_eq_right (by linarith)]
      · rw [if_neg (not_le.mpr hat)]
        have hfr : s'.glideFractionAmp ≤ 0 := by
          rw [hfrA']
          exact mul_nonpos_iff.mpr (Or.inr ⟨by linarith, by positivity⟩)
        have : (k : ℚ) * s'.glideFractionAmp ≤ A - b := by
          rw [← hgsfrA]
          exact mul_le_mul_of_nonpos_right hkQ hfr
        rw [max_eq_right (by linarith)]
  · intro j
    have hI3 := hincAll j
    have hA3 := hampAll j
    refine ⟨?_, ?_, ?_, ?_⟩
    · rw [hI3]
      rcases le_or_lt a t with hat | hat
      · rw [if_pos hat, min_eq_left hat]
        have hfr : 0 ≤ s'.glideFractionInc := by
          rw [hfrI']
          exact mul_nonneg (by linarith) (by positivity)
        have : 0 ≤ (j : ℚ) * s'.glideFractionInc := by positivity
        exact le_min (by linarith) hat
      · rw [if_neg (not_le.mpr hat), min_eq_right (le_of_lt hat)]
        exact le_max_right _ _
    · rw [hI3]
      rcases le_or_lt a t with hat | hat
      · rw [if_pos hat, max_eq_right hat]
        exact min_le_right _ _
      · rw [if_neg (not_le.mpr hat), max_eq_left (le_of_lt hat)]
        have hfr : s'.glideFractionInc ≤ 0 := by
          rw [hfrI']
          exact mul_nonpos_iff.mpr (Or.inr ⟨by linarith, by positivity⟩)
        have : (j : ℚ) * s'.glideFractionInc ≤ 0 :=
          mul_nonpos_iff.mpr (Or.inl ⟨by positivity, hfr⟩)
        exact max_le (by linarith) (le_of_lt hat)
    · rw [hA3]
      rcases le_or_lt b A with hat | hat
      · rw [if_pos hat, min_eq_left hat]
        have hfr : 0 ≤ s'.glideFractionAmp := by
          rw [hfrA']
          exact mul_nonneg (by linarith) (by positivity)
        have : 0 ≤ (j : ℚ) * s'.glideFractionAmp := by positivity
        exact le_min (by linarith) hat
      · rw [if_neg (not_le.mpr hat), min_eq_right (le_of_lt hat)]
        exact le_max_right _ _
    · rw [hA3]
      rcases le_or_lt b A with hat | hat
      · rw [if_pos hat, max_eq_right hat]
        exact min_le_right _ _
      · rw [if_neg (not_le.mpr hat), max_eq_left (le_of_lt hat)]
        have hfr : s'.glideFractionAmp ≤ 0 := by
          rw [hfrA']
          exact mul_nonpos_iff.mpr (Or.inr ⟨by linarith, by positivity⟩)
        have : (j : ℚ) * s'.glideFractionAmp ≤ 0 :=
          mul_nonpos_iff.mpr (Or.inl ⟨by positivity, hfr⟩)
        exact max_le (by linarith) (le_of_lt hat)

/-- A glide-resolution-1 oscillator at sampling frequency 15 with `W = 16`
(`INTERNAL_SIZE = 15`, so a frequency `f` maps to increment `f` exactly). -/
def witnessOsc : OscState := WTOscillator.set_glide_steps (mkOsc 15) 1

/-- `witnessOsc` retuned to frequency 2 (increment target 2) with no step executed:
its live increment is still 0 while the snapshotted previous target is 2. -/
def cexOsc1 : OscState := WTOscillator.tune_and_set_amp 16 witnessOsc 2 0

/-- `cexOsc1` retuned to frequency 4 (increment target 4). -/
def cexOsc2 : OscState := WTOscillator.tune_and_set_amp 16 cexOsc1 4 0

/-- C5 counterexample: the claim quantifies over every oscillator state.  Take glide
resolution `1 / glide_steps = 1` (`glide_steps = 1`) and the reachable state `cexOsc1`
(retuned to frequency 2, not yet stepped).  One further `tune_and_set_amp(4, 0)` followed
by `glide_steps = 1` step (with no intervening retune) leaves the increment at `2`, not
at the increment target `4`: the glide fraction is computed from the snapshotted previous
target rather than from the live increment, so one step falls short of the target. -/
theorem C5_counterexample :
    cexOsc1.glideResolution = 1 ∧
      WTOscillator.incrementTarget 16 cexOsc1 4 = 4 ∧
      (stepIter 16 (fun _ => 0) 1 cexOsc2).indexIncrement = 2 := by
  refine ⟨?_, ?_, ?_⟩ <;>
    norm_num [cexOsc2, cexOsc1, witnessOsc, stepIter,
      WTOscillator.advance_and_receive_output, WTOscillator.tune_and_set_amp,
      WTOscillator.incrementTarget, WTOscillator.set_glide_steps, mkOsc, defaultOsc, clampQ]

/-- Witness for `C5_glide_settles_and_never_overshoots`: `witnessOsc` (settled, glide
resolution 1), tuned to frequency 1 and amplitude 1, reaches increment target and
amplitude after one step. -/
theorem C5_witness :
    witnessOsc.glideResolution = 1 / ((1 : ℕ) : ℚ) ∧
      (stepIter 16 (fun _ => 0) 1 (WTOscillator.tune_and_set_amp 16 witnessOsc 1 1)).indexIncrement
          = WTOscillator.incrementTarget 16 witnessOsc 1 ∧
        (stepIter 16 (fun _ => 0) 1 (WTOscillator.tune_and_set_amp 16 witnessOsc 1 1)).amplitude
          = 1 :=
  ⟨by norm_num [witnessOsc, WTOscillator.set_glide_steps, mkOsc, defaultOsc],
    (C5_glide_settles_and_never_overshoots 16 1 1 (fun _ => 0) witnessOsc 1 1
        (le_refl 1)
        (by norm_num [witnessOsc, WTOscillator.set_glide_steps, mkOsc, defaultOsc])
        (by norm_num [witnessOsc, WTOscillator.set_glide_steps, mkOsc, defaultOsc])
        (by norm_num [witnessOsc, WTOscillator.set_glide_steps, mkOsc, defaultOsc])
        (by norm_num [witnessOsc, WTOscillator.set_glide_steps, mkOsc, defaultOsc])
        (by norm_num [witnessOsc, WTOscillator.set_glide_steps, mkOsc, defaultOsc])
        (by norm_num [witnessOsc, WTOscillator.set_glide_steps, mkOsc, defaultOsc])
        (by norm_num [witnessOsc, WTOscillator.set_glide_steps, mkOsc, defaultOsc])).1
      (le_refl 1)⟩

/-! ### Phase-index safety (C9) -/

/-- Oscillator states reachable through the public operations that touch the phase,
the increment and the glide limits: construction with a positive sampling frequency,
`reset`, `tune_and_set_amp`, `advance_and_receive_output` and `set_glide_steps`
(`select_waveform` and move-assignment copy these fields unchanged). -/
inductive OscReachable (W : ℕ) : OscState → Prop
  | construct (fs : ℚ) (hfs : 0 < fs) : OscReachable W (mkOsc fs)
  | reset (s : OscState) (fs : ℚ) (hs : OscReachable W s) (hfs : 0 < fs) :
      OscReachable W (WTOscillator.reset s fs)
  | tune (s : OscState) (f A : ℚ) (hs : OscReachable W s) :
      OscReachable W (WTOscillator.tune_and_set_amp W s f A)
  | step (s : OscState) (table : ℕ → ℚ) (hs : OscReachable W s) :
      OscReachable W ((WTOscillator.advance_and_receive_output W table s).1)
  | glide (s : OscState) (g : ℕ) (hs : OscReachable W s) :
      OscReachable W (WTOscillator.set_glide_steps s g)

/-- The invariant maintained by every reachable oscillator state: the phase stays in
`[0, W - 1)`, the increment, its previous target and both clamp limits stay in
`[0, (W - 1) / 2]`, and the cached Nyquist / reciprocal sampling frequency are
consistent with a positive sampling frequency. -/
def OscInv (W : ℕ) (s : OscState) : Prop :=
  0 ≤ s.tableIndex ∧ s.tableIndex < (W : ℚ) - 1 ∧
    0 ≤ s.indexIncrement ∧ s.indexIncrement ≤ ((W : ℚ) - 1) / 2 ∧
    0 ≤ s.lowerLimitInc ∧ s.lowerLimitInc ≤ ((W : ℚ) - 1) / 2 ∧
    0 ≤ s.upperLimitInc ∧ s.upperLimitInc ≤ ((W : ℚ) - 1) / 2 ∧
    0 ≤ s.prevIndexIncrement ∧ s.prevIndexIncrement ≤ ((W : ℚ) - 1) / 2 ∧
    0 < s.samplingFreq ∧ s.nyquistFreq = s.samplingFreq / 2 ∧
    s.invSamplingFreq = 1 / s.samplingFreq

theorem clampQ_le_of_le (v lo hi : ℚ) (h : lo ≤ hi) :
    lo ≤ clampQ v lo hi ∧ clampQ v lo hi ≤ hi := by
  unfold clampQ
  split_ifs <;> constructor <;> linarith

theorem clampQ_bounds (v lo hi M : ℚ) (h1 : 0 ≤ lo) (h2 : lo ≤ M) (h3 : 0 ≤ hi)
    (h4 : hi ≤ M) : 0 ≤ clampQ v lo hi ∧ clampQ v lo hi ≤ M := by
  unfold clampQ
  split_ifs <;> constructor <;> linarith

theorem incrementTarget_bounds (W : ℕ) (s : OscState) (f : ℚ) (hW : 1 ≤ W)
    (hfs : 0 < s.samplingFreq) (hny : s.nyquistFreq = s.samplingFreq / 2)
    (hinv : s.invSamplingFreq = 1 / s.samplingFreq) :
    0 ≤ WTOscillator.incrementTarget W s f ∧
      WTOscillator.incrementTarget W s f ≤ ((W : ℚ) - 1) / 2 := by
  unfold WTOscillator.incrementTarget
  obtain ⟨hc1, hc2⟩ := clampQ_le_of_le f 0 s.nyquistFreq (by rw [hny]; positivity)
  have hW1 : (0 : ℚ) ≤ (W : ℚ) - 1 := by
    have : (1 : ℚ) ≤ (W : ℚ) := by exact_mod_cast hW
    linarith
  rw [hinv, hny]
  rw [hny] at hc1 hc2
  constructor
  · exact mul_nonneg (mul_nonneg hW1 hc1) (by positivity)
  · calc ((W : ℚ) - 1) * clampQ f 0 (s.samplingFreq / 2) * (1 / s.samplingFreq)
        ≤ ((W : ℚ) - 1) * (s.samplingFreq / 2) * (1 / s.samplingFreq) := by
          exact mul_le_mul_of_nonneg_right
            (mul_le_mul_of_nonneg_left hc2 hW1) (by positivity)
      _ = ((W : ℚ) - 1) / 2 := by
          field_simp
          ring

theorem oscReachable_inv (W : ℕ) (hW : 2 ≤ W) (s : OscState) (h : OscReachable W s) :
    OscInv W s := by
  have hW1Q : (2 : ℚ) ≤ (W : ℚ) := by exact_mod_cast hW
  have hWpos : (0 : ℚ) < (W : ℚ) - 1 := by linarith
  induction h with
  | construct fs hfs =>
    refine ⟨?_, ?_, ?_, ?_, ?_, ?_, ?_, ?_, ?_, ?_, ?_, ?_, ?_⟩ <;>
      simp [mkOsc, defaultOsc] <;> linarith
  | reset s fs hs hfs ih =>
    refine ⟨?_, ?_, ?_, ?_, ?_, ?_, ?_, ?_, ?_, ?_, ?_, ?_, ?_⟩ <;>
      simp [WTOscillator.reset] <;> linarith
  | tune s f A hs ih =>
    obtain ⟨i1, i2, i3, i4, i5, i6, i7, i8, i9, i10, i11, i12, i13⟩ := ih
    obtain ⟨hIeq, hAeq, hprevI, hprevA, _, _, hq1, hq2, _, _⟩ := tune_fields W s f A
    obtain ⟨ht1, ht2⟩ := incrementTarget_bounds W s f (by omega) i11 i12 i13
    have htable : (WTOscillator.tune_and_set_amp W s f A).tableIndex = s.tableIndex := by
      by_cases h1 : s.prevIndexIncrement < WTOscillator.incrementTarget W s f <;>
        by_cases h2 : s.prevAmplitude < A <;>
          simp [WTOscillator.tune_and_set_amp, h1, h2]
    have hfs3 : (WTOscillator.tune_and_set_amp W s f A).samplingFreq = s.samplingFreq ∧
        (WTOscillator.tune_and_set_amp W s f A).nyquistFreq = s.nyquistFreq ∧
        (WTOscillator.tune_and_set_amp W s f A).invSamplingFreq = s.invSamplingFreq := by
      by_cases h1 : s.prevIndexIncrement < WTOscillator.incrementTarget W s f <;>
        by_cases h2 : s.prevAmplitude < A <;>
          simp [WTOscillator.tune_and_set_amp, h1, h2]
    obtain ⟨hf1, hf2, hf3⟩ := hfs3
    refine ⟨by rw [htable]; exact i1, by rw [htable]; exact i2,
      by rw [hIeq]; exact i3, by rw [hIeq]; exact i4, ?_, ?_, ?_, ?_,
      by rw [hprevI]; exact ht1, by rw [hprevI]; exact ht2,
      by rw [hf1]; exact i11, by rw [hf2, hf1]; exact i12, by rw [hf3, hf1]; exact i13⟩
    all_goals
      by_cases h1 : s.prevIndexIncrement < WTOscillator.incrementTarget W s f
    · obtain ⟨_, hlo⟩ := hq1 h1
      rw [hlo]; exact i5
    · obtain ⟨hlo, _⟩ := hq2 h1
      rw [hlo]; exact ht1
    · obtain ⟨_, hlo⟩ := hq1 h1
      rw [hlo]; exact i6
    · obtain ⟨hlo, _⟩ := hq2 h1
      rw [hlo]; exact ht2
    · obtain ⟨hup, _⟩ := hq1 h1
      rw [hup]; exact ht1
    · obtain ⟨_, hup⟩ := hq2 h1
      rw [hup]; exact i7
    · obtain ⟨hup, _⟩ := hq1 h1
      rw [hup]; exact ht2
    · obtain ⟨_, hup⟩ := hq2 h1
      rw [hup]; exact i8
  | step s table hs ih =>
    obtain ⟨i1, i2, i3, i4, i5, i6, i7, i8, i9, i10, i11, i12, i13⟩ := ih
    have hhalf : ((W : ℚ) - 1) / 2 < (W : ℚ) - 1 := by linarith
    constructor
    · show (0 : ℚ) ≤ (if ((W : ℚ) - 1) ≤ s.tableIndex + s.indexIncrement
        then s.tableIndex + s.indexIncrement - ((W : ℚ) - 1)
        else s.tableIndex + s.indexIncrement)
      split_ifs <;> linarith
    constructor
    · show (if ((W : ℚ) - 1) ≤ s.tableIndex + s.indexIncrement
        then s.tableIndex + s.indexIncrement - ((W : ℚ) - 1)
        else s.tableIndex + s.indexIncrement) < (W : ℚ) - 1
      split_ifs <;> linarith
    refine ⟨?_, ?_, i5, i6, i7, i8, i9, i10, i11, i12, i13⟩
    · exact (clampQ_bounds (s.indexIncrement + s.glideFractionInc) s.lowerLimitInc
        s.upperLimitInc (((W : ℚ) - 1) / 2) i5 i6 i7 i8).1
    · exact (clampQ_bounds (s.indexIncrement + s.glideFractionInc) s.lowerLimitInc
        s.upperLimitInc (((W : ℚ) - 1) / 2) i5 i6 i7 i8).2
  | glide s g hs ih => exact ih

/-- C9: for every oscillator whose state was only ever produced by `reset`,
`tune_and_set_amp` (which clamps the frequency into `[0, Nyquist]`, so the increment
never exceeds `(W - 1) / 2` and is never negative) and the per-sample step, the phase
index stays in `[0, W - 1)`; hence the two unchecked wavetable reads at
`floor(phase)` and `floor(phase) + 1` address indices at most `W - 1` and are in
bounds for the length-`W` table. -/
theorem C9_phase_reads_in_bounds (W : ℕ) (s : OscState) (hW : 2 ≤ W)
    (h : OscReachable W s) :
    0 ≤ s.tableIndex ∧ s.tableIndex < (W : ℚ) - 1 ∧
      WTOscillator.currentIndex s + 1 ≤ W - 1 := by
  obtain ⟨i1, i2, _⟩ := oscReachable_inv W hW s h
  refine ⟨i1, i2, ?_⟩
  have hfloor : ⌊s.tableIndex⌋ < (W : ℤ) - 1 := by
    have : s.tableIndex < (((W : ℤ) - 1 : ℤ) : ℚ) := by push_cast; linarith
    exact Int.floor_lt.mpr this
  have : (⌊s.tableIndex⌋).toNat < W - 1 := by
    rw [Int.toNat_lt']
    · omega
    · omega
  unfold WTOscillator.currentIndex
  omega

/-- Witness for `C9_phase_reads_in_bounds`: `W = 16`, the freshly constructed
oscillator at sampling frequency 2. -/
theorem C9_witness :
    (2 ≤ 16 ∧ OscReachable 16 (mkOsc 2)) ∧
      WTOscillator.currentIndex (mkOsc 2) + 1 ≤ 16 - 1 :=
  ⟨⟨by norm_num, OscReachable.construct 2 (by norm_num)⟩,
    (C9_phase_reads_in_bounds 16 (mkOsc 2) (by norm_num)
      (OscReachable.construct 2 (by norm_num))).2.2⟩


/-! ## Peak extraction (`calculate_max_map` in `inc/SpctProcessingFunctions.h`) -/

/-- `min_gain_threshold` from `inc/SpctDomainSpecific.h` (`0.01`). -/
def min_gain_threshold : ℚ := 1 / 100

/-- The clipping actually applied in `calculate_max_map`:
`threshold >= 1 ? threshold : 1`. -/
def clippedThreshold (threshold : ℚ) : ℚ := if 1 ≤ threshold then threshold else 1

/-- The collection loop of `calculate_max_map`: walk the half-spectrum magnitudes
`|samples_arr[k]|` in bin order starting at bin `k` and append `(bin, magnitude)`
whenever the magnitude is at least the clipped threshold.  (`std::abs` of a complex
bin is abstracted to the given rational magnitude.) -/
def collectBins (threshold : ℚ) : ℕ → List ℚ → List (ℕ × ℚ)
  | _, [] => []
  | k, m :: rest =>
    if clippedThreshold threshold ≤ m then
      (k, m) :: collectBins threshold (k + 1) rest
    else collectBins threshold (k + 1) rest

/-- Contents of `bin_mag_arr` after the collection loop: the collected pairs occupy
positions `[0, valid)` and the positions from `valid` on keep their previous
contents. -/
def afterCollection (oldArr collected : List (ℕ × ℚ)) : List (ℕ × ℚ) :=
  collected ++ oldArr.drop collected.length

def insertDesc (x : ℕ × ℚ) : List (ℕ × ℚ) → List (ℕ × ℚ)
  | [] => [x]
  | y :: ys => if y.2 < x.2 then x :: y :: ys else y :: insertDesc x ys

/-- Descending sort by magnitude (insertion sort, stable on ties).
`std::partial_sort(begin, begin + valid, end, comp)` with `comp = (>)` on magnitudes
guarantees that positions `[0, valid)` afterwards hold the `valid` largest-magnitude
elements of the whole range in descending order (tie order unspecified); a full
descending sort realizes that contract, and the theorems below depend only on the
`[0, valid)` prefix. -/
def sortDesc (l : List (ℕ × ℚ)) : List (ℕ × ℚ) := l.foldr insertDesc []

/-- `calculate_max_map(samples_arr, bin_mag_arr, threshold)`: returns `valid_entries`
together with the contents of `bin_mag_arr` afterwards.  `mags` is the list of
magnitudes `|samples_arr[k]|`, `k ∈ [0, N/2)`; `oldArr` the previous array content. -/
def calculate_max_map (mags : List ℚ) (oldArr : List (ℕ × ℚ)) (threshold : ℚ) :
    ℕ × List (ℕ × ℚ) :=
  let collected := collectBins threshold 0 mags
  (collected.length, sortDesc (afterCollection oldArr collected))

/-! ### Lemmas on collection and sorting -/

theorem collectBins_length (threshold : ℚ) (mags : List ℚ) :
    ∀ k, (collectBins threshold k mags).length
      = mags.countP (fun m => decide (clippedThreshold threshold ≤ m)) := by
  induction mags with
  | nil => intro k; simp [collectBins]
  | cons m rest ih =>
    intro k
    rw [collectBins, List.countP_cons]
    by_cases h : clippedThreshold threshold ≤ m
    · simp [h, ih]
    · simp [h, ih]

theorem collectBins_sound (threshold : ℚ) (mags : List ℚ) :
    ∀ k, ∀ p ∈ collectBins threshold k mags,
      clippedThreshold threshold ≤ p.2 ∧
        ∃ j, mags.get? j = some p.2 ∧ p.1 = k + j := by
  induction mags with
  | nil => intro k p hp; simp [collectBins] at hp
  | cons m rest ih =>
    intro k p hp
    rw [collectBins] at hp
    by_cases h : clippedThreshold threshold ≤ m
    · rw [if_pos h] at hp
      rcases List.mem_cons.mp hp with rfl | hp2
      · exact ⟨h, 0, rfl, rfl⟩
      · obtain ⟨h1, j, h2, h3⟩ := ih (k + 1) p hp2
        exact ⟨h1, j + 1, by simpa using h2, by omega⟩
    · rw [if_neg h] at hp
      obtain ⟨h1, j, h2, h3⟩ := ih (k + 1) p hp
      exact ⟨h1, j + 1, by simpa using h2, by omega⟩

theorem collectBins_complete (threshold : ℚ) (mags : List ℚ) :
    ∀ k j m, mags.get? j = some m → clippedThreshold threshold ≤ m →
      (k + j, m) ∈ collectBins threshold k mags := by
  induction mags with
  | nil => intro k j m hj _; simp at hj
  | cons m0 rest ih =>
    intro k j m hj hm
    rw [collectBins]
    cases j with
    | zero =>
      simp only [List.get?] at hj
      cases hj
      rw [if_pos hm]
      simp
    | succ j =>
      simp only [List.get?] at hj
      have := ih (k + 1) j m hj hm
      by_cases h : clippedThreshold threshold ≤ m0
      · rw [if_pos h]
        refine List.mem_cons.mpr (Or.inr ?_)
        simpa [Nat.add_assoc, Nat.add_comm 1 j] using this
      · rw [if_neg h]
        simpa [Nat.add_assoc, Nat.add_comm 1 j] using this

theorem insertDesc_perm (x : ℕ × ℚ) (l : List (ℕ × ℚ)) :
    (insertDesc x l).Perm (x :: l) := by
  induction l with
  | nil => exact List.Perm.refl _
  | cons y ys ih =>
    rw [insertDesc]
    by_cases h : y.2 < x.2
    · rw [if_pos h]
    · rw [if_neg h]
      exact (List.Perm.cons y ih).trans (List.Perm.swap x y ys)

theorem sortDesc_perm (l : List (ℕ × ℚ)) : (sortDesc l).Perm l := by
  induction l with
  | nil => exact List.Perm.refl _
  | cons a l ih =>
    show (insertDesc a (sortDesc l)).Perm (a :: l)
    exact (insertDesc_perm a (sortDesc l)).trans (List.Perm.cons a ih)

theorem insertDesc_sorted (x : ℕ × ℚ) (l : List (ℕ × ℚ))
    (h : List.Pairwise (fun p q : ℕ × ℚ => q.2 ≤ p.2) l) :
    List.Pairwise (fun p q : ℕ × ℚ => q.2 ≤ p.2) (insertDesc x l) := by
  induction l with
  | nil => simp [insertDesc]
  | cons y ys ih =>
    obtain ⟨hy, hys⟩ := List.pairwise_cons.mp h
    rw [insertDesc]
    by_cases hxy : y.2 < x.2
    · rw [if_pos hxy]
      refine List.pairwise_cons.mpr ⟨?_, h⟩
      intro z hz
      rcases List.mem_cons.mp hz with rfl | hz2
      · exact le_of_lt hxy
      · exact le_trans (hy z hz2) (le_of_lt hxy)
    · rw [if_neg hxy]
      refine List.pairwise_cons.mpr ⟨?_, ih hys⟩
      intro z hz
      have hz3 := (insertDesc_perm x ys).mem_iff.mp hz
      rcases List.mem_cons.mp hz3 with rfl | hz4
      · exact not_lt.mp hxy
      · exact hy z hz4

theorem sortDesc_sorted (l : List (ℕ × ℚ)) :
    List.Pairwise (fun p q : ℕ × ℚ => q.2 ≤ p.2) (sortDesc l) := by
  induction l with
  | nil => simp [sortDesc]
  | cons a l ih => exact insertDesc_sorted a (sortDesc l) ih

theorem sorted_take_countP (c : ℚ) :
    ∀ (l : List (ℕ × ℚ)) (k : ℕ),
      List.Pairwise (fun p q : ℕ × ℚ => q.2 ≤ p.2) l →
      k ≤ l.countP (fun p => decide (c ≤ p.2)) →
      ∀ p ∈ l.take k, c ≤ p.2 := by
  intro l
  induction l with
  | nil =>
    intro k _ _ p hp
    simp at hp
  | cons a tl ih =>
    intro k hsort hcount p hp
    cases k with
    | zero => simp at hp
    | succ k =>
      rw [List.take_succ_cons] at hp
      obtain ⟨ha, htl⟩ := List.pairwise_cons.mp hsort
      rcases List.mem_cons.mp hp with heq | hp2
      · rw [heq]
        by_contra hca
        push_neg at hca
        have hzero : (a :: tl).countP (fun q => decide (c ≤ q.2)) = 0 := by
          rw [List.countP_eq_zero]
          intro x hx
          rcases List.mem_cons.mp hx with rfl | hx2
          · simpa using not_le.mpr hca
          · have := ha x hx2
            simp only [decide_eq_true_eq]
            push_neg
            linarith
        omega
      · have hsplit := List.countP_cons (fun q => decide (c ≤ q.2)) a tl
        have hle : (if decide (c ≤ a.2) = true then 1 else 0) ≤ 1 := by
          split <;> omega
        have hk : k ≤ tl.countP (fun q => decide (c ≤ q.2)) := by
          rw [hsplit] at hcount
          split at hcount <;> omega
        exact ih k htl hk p hp2

/-- C4 (corrected): the threshold actually applied by `calculate_max_map` is
`max(threshold, 1)` — a lower clip at `1`, with no dependence on
`min_gain_threshold = 0.01` and no upper clamp at `N/2`.  It equals the supplied
threshold exactly when the supplied threshold is at least `1`, and a bin is collected
if and only if its magnitude is at least this applied threshold. -/
theorem C4_applied_threshold (threshold : ℚ) :
    clippedThreshold threshold = max threshold 1 ∧
      (1 ≤ threshold → clippedThreshold threshold = threshold) ∧
      (∀ (mags : List ℚ) (j : ℕ) (m : ℚ), mags.get? j = some m →
        ((j, m) ∈ collectBins threshold 0 mags ↔ clippedThreshold threshold ≤ m)) := by
  refine ⟨?_, ?_, ?_⟩
  · unfold clippedThreshold
    rcases le_total 1 threshold with h | h
    · rw [if_pos h, max_eq_left h]
    · rcases eq_or_lt_of_le h with heq | hlt
      · rw [← heq]
        simp
      · rw [if_neg (by linarith), max_eq_right (by linarith)]
  · intro h
    unfold clippedThreshold
    rw [if_pos h]
  · intro mags j m hj
    constructor
    · intro hmem
      exact (collectBins_sound threshold mags 0 (j, m) hmem).1
    · intro hm
      simpa using collectBins_complete threshold mags 0 j m hj hm

/-- C4 counterexample: the supplied threshold `1/2` lies inside
`[min_gain_threshold, N/2] = [0.01, N/2]`, yet the value applied by the code is
`1 ≠ 1/2`, and a bin of magnitude `7/10 ≥ max(1/2, 0.01)` is not collected. -/
theorem C4_counterexample :
    min_gain_threshold ≤ (1 : ℚ) / 2 ∧
      clippedThreshold ((1 : ℚ) / 2) ≠ 1 / 2 ∧
      collectBins ((1 : ℚ) / 2) 0 [7 / 10] = [] := by
  refine ⟨by norm_num [min_gain_threshold], ?_, ?_⟩
  · norm_num [clippedThreshold]
  · norm_num [collectBins, clippedThreshold]

/-- C3 (corrected): `calculate_max_map` returns `valid` = the number of bins whose
magnitude meets the applied threshold `max(threshold, 1)`, and positions `[0, valid)`
of the array afterwards hold pairs in descending magnitude order, each drawn from the
array contents after collection (the collected `(k, |out[k]|)` pairs plus the stale
tail left beyond position `valid`), and each with magnitude at least
`max(threshold, min_gain_threshold)`.  It is *not* guaranteed that they are exactly
the collected pairs: `std::partial_sort` runs over the whole array, so a stale entry
of larger magnitude can displace a collected one (see the counterexample). -/
theorem C3_peak_map (mags : List ℚ) (oldArr : List (ℕ × ℚ)) (threshold : ℚ) :
    (calculate_max_map mags oldArr threshold).1
        = mags.countP (fun m => decide (clippedThreshold threshold ≤ m)) ∧
      List.Pairwise (fun p q : ℕ × ℚ => q.2 ≤ p.2)
        ((calculate_max_map mags oldArr threshold).2.take
          (calculate_max_map mags oldArr threshold).1) ∧
      (∀ p ∈ (calculate_max_map mags oldArr threshold).2.take
          (calculate_max_map mags oldArr threshold).1,
        max threshold min_gain_threshold ≤ p.2) ∧
      (∀ p ∈ (calculate_max_map mags oldArr threshold).2.take
          (calculate_max_map mags oldArr threshold).1,
        p ∈ afterCollection oldArr (collectBins threshold 0 mags)) := by
  have hsorted := sortDesc_sorted (afterCollection oldArr (collectBins threshold 0 mags))
  have hperm := sortDesc_perm (afterCollection oldArr (collectBins threshold 0 mags))
  have hmem : ∀ p ∈ (calculate_max_map mags oldArr threshold).2.take
      (calculate_max_map mags oldArr threshold).1,
      p ∈ afterCollection oldArr (collectBins threshold 0 mags) := by
    intro p hp
    exact hperm.mem_iff.mp ((List.take_sublist _ _).mem hp)
  refine ⟨collectBins_length threshold mags 0, ?_, ?_, hmem⟩
  · exact hsorted.sublist (List.take_sublist _ _)
  · intro p hp
    have hcount : (collectBins threshold 0 mags).length
        ≤ (sortDesc (afterCollection oldArr (collectBins threshold 0 mags))).countP
          (fun q => decide (clippedThreshold threshold ≤ q.2)) := by
      rw [hperm.countP_eq]
      unfold afterCollection
      rw [List.countP_append]
      have hall : (collectBins threshold 0 mags).countP
          (fun q => decide (clippedThreshold threshold ≤ q.2))
            = (collectBins threshold 0 mags).length := by
        rw [List.countP_eq_length]
        intro q hq
        simpa using (collectBins_sound threshold mags 0 q hq).1
      omega
    have hp2 : clippedThreshold threshold ≤ p.2 := by
      have := sorted_take_countP (clippedThreshold threshold) _
        (calculate_max_map mags oldArr threshold).1 hsorted ?_ p hp
      · exact this
      · show (calculate_max_map mags oldArr threshold).1 ≤ _
        exact hcount
    have hclip : max threshold min_gain_threshold ≤ clippedThreshold threshold := by
      unfold clippedThreshold min_gain_threshold
      rcases le_or_lt 1 threshold with h | h
      · rw [if_pos h]
        exact max_le (le_refl _) (by linarith)
      · rw [if_neg (not_le.mpr h)]
        exact max_le (by linarith) (by norm_num)
    linarith

/-- Half-spectrum magnitudes of the C3 counterexample (`N = 16`, 8 bins):
`|out[0]| = 5`, `|out[1]| = 2`, all other bins zero. -/
def cexMags : List ℚ := [5, 2, 0, 0, 0, 0, 0, 0]

/-- Previous `bin_mag_arr` contents of the C3 counterexample: a stale pair `(7, 9)`
(from some earlier run) sits at position 2. -/
def cexOldArr : List (ℕ × ℚ) := [(0, 0), (0, 0), (7, 9), (0, 0), (0, 0), (0, 0), (0, 0), (0, 0)]

/-- C3 counterexample: with threshold `0` the bins meeting the (clipped) threshold are
exactly `(0, 5)` and `(1, 2)`, so the claim demands positions `[0, 2)` to hold
`[(0, 5), (1, 2)]`.  The code instead returns `[(7, 9), (0, 5)]`: `std::partial_sort`
runs over the whole array, and the stale pair `(7, 9)` — whose magnitude `9` is not
`|out[7]| = 0` — displaces the genuine peak `(1, 2)`. -/
theorem C3_counterexample :
    (calculate_max_map cexMags cexOldArr 0).1 = 2 ∧
      (calculate_max_map cexMags cexOldArr 0).2.take 2 = [(7, 9), (0, 5)] ∧
      cexMags.getD 7 0 = 0 := by
  refine ⟨?_, ?_, ?_⟩ <;>
    norm_num [calculate_max_map, collectBins, clippedThreshold, afterCollection,
      sortDesc, insertDesc, cexMags, cexOldArr]



/-! ## Oscillator stack (`ResynthOscs` in `inc/SpctOscillatorStack.h`) -/

/-- `max_oscillators` (`V_max`) from `inc/SpctDomainSpecific.h`. -/
def max_oscillators : ℕ := 46

/-- `CalculationEngine::set_voices`: `std::clamp<size_t>(num_voices, 0, max_oscillators)`. -/
def set_voices (numVoices : ℕ) : ℕ := min numVoices max_oscillators

/-- The first `for_each` of `tune_oscillators_to_fft` over
`views::counted(bin_mag_arr.begin(), num_voices)`: tune oscillator `nth`, `nth + 1`, …
to `entry.first * m_freq_resolution + m_freq_offset` with amplitude
`entry.second * m_amp_correction`, one entry at a time. -/
def tuneActiveLoop (W : ℕ) (freqResolution freqOffset ampCorrection : ℚ) :
    List (ℕ × ℚ) → List OscState → ℕ → List OscState
  | [], oscs, _ => oscs
  | e :: rest, oscs, nth =>
    tuneActiveLoop W freqResolution freqOffset ampCorrection rest
      (oscs.set nth (WTOscillator.tune_and_set_amp W (oscs.getD nth defaultOsc)
        ((e.1 : ℚ) * freqResolution + freqOffset) (e.2 * ampCorrection)))
      (nth + 1)

/-- The second `for_each`: tune one oscillator per remaining entry to `(0, 0)`
(the entry itself is unused). -/
def tuneSilentLoop (W : ℕ) : List (ℕ × ℚ) → List OscState → ℕ → List OscState
  | [], oscs, _ => oscs
  | _ :: rest, oscs, nth =>
    tuneSilentLoop W rest
      (oscs.set nth (WTOscillator.tune_and_set_amp W (oscs.getD nth defaultOsc) 0 0))
      (nth + 1)

/-- `ResynthOscs::tune_oscillators_to_fft(bin_mag_arr, num_voices)` over a bank
`oscs` of `NUM_OSCS = oscs.length` oscillators:
`num_active_oscs = clamp(num_voices, 0, NUM_OSCS)`,
`num_silent_oscs = NUM_OSCS - num_active_oscs`; the active view iterates
`num_voices` entries (`views::counted(begin, num_voices)`), the silent view iterates
`num_silent_oscs` entries starting at `begin + num_active_oscs`, with the oscillator
counter `nth_osc` continuing from where the active loop left it. -/
def tune_oscillators_to_fft (W : ℕ) (freqResolution freqOffset ampCorrection : ℚ)
    (oscs : List OscState) (binMag : List (ℕ × ℚ)) (numVoices : ℕ) : List OscState :=
  let numActive := min numVoices oscs.length
  let numSilent := oscs.length - numActive
  let oscs1 := tuneActiveLoop W freqResolution freqOffset ampCorrection
    (binMag.take numVoices) oscs 0
  tuneSilentLoop W ((binMag.drop numActive).take numSilent) oscs1 numVoices

/-! ### Loop characterizations -/

theorem getD_set_char (oscs : List OscState) (nth j : ℕ) (v : OscState) :
    (oscs.set nth v).getD j defaultOsc =
      if j = nth ∧ nth < oscs.length then v else oscs.getD j defaultOsc := by
  by_cases hj : j = nth
  · subst hj
    by_cases hlen : j < oscs.length
    · rw [if_pos ⟨rfl, hlen⟩, List.getD_eq_getD_get?, List.get?_set_eq,
        List.get?_eq_get hlen]
      rfl
    · rw [if_neg (fun h => hlen h.2), List.getD_eq_getD_get?, List.getD_eq_getD_get?,
        List.get?_set_eq, List.get?_eq_none.mpr (by omega)]
      rfl
  · rw [if_neg (fun h => hj h.1), List.getD_eq_getD_get?, List.getD_eq_getD_get?,
      List.get?_set_ne _ _ (fun h => hj h.symm)]

theorem tuneActiveLoop_length (W : ℕ) (fr off ac : ℚ) :
    ∀ (entries : List (ℕ × ℚ)) (oscs : List OscState) (nth : ℕ),
      (tuneActiveLoop W fr off ac entries oscs nth).length = oscs.length := by
  intro entries
  induction entries with
  | nil => intro oscs nth; rfl
  | cons e rest ih =>
    intro oscs nth
    rw [tuneActiveLoop, ih, List.length_set]

theorem tuneSilentLoop_length (W : ℕ) :
    ∀ (entries : List (ℕ × ℚ)) (oscs : List OscState) (nth : ℕ),
      (tuneSilentLoop W entries oscs nth).length = oscs.length := by
  intro entries
  induction entries with
  | nil => intro oscs nth; rfl
  | cons e rest ih =>
    intro oscs nth
    rw [tuneSilentLoop, ih, List.length_set]

theorem tuneActiveLoop_getD (W : ℕ) (fr off ac : ℚ) :
    ∀ (entries : List (ℕ × ℚ)) (oscs : List OscState) (nth j : ℕ),
      (tuneActiveLoop W fr off ac entries oscs nth).getD j defaultOsc =
        if nth ≤ j ∧ j < nth + entries.length ∧ j < oscs.length then
          WTOscillator.tune_and_set_amp W (oscs.getD j defaultOsc)
            (((entries.getD (j - nth) (0, 0)).1 : ℚ) * fr + off)
            ((entries.getD (j - nth) (0, 0)).2 * ac)
        else oscs.getD j defaultOsc := by
  intro entries
  induction entries with
  | nil =>
    intro oscs nth j
    rw [tuneActiveLoop]
    rw [if_neg (by simp only [List.length_nil]; omega)]
  | cons e rest ih =>
    intro oscs nth j
    rw [tuneActiveLoop, ih, List.length_set]
    simp only [getD_set_char, List.length_cons]
    by_cases hj : j = nth
    · subst hj
      rw [if_neg (show ¬(j + 1 ≤ j ∧ j < j + 1 + rest.length ∧ j < oscs.length) by omega)]
      by_cases hlen : j < oscs.length
      · rw [if_pos (show j = j ∧ j < oscs.length from ⟨rfl, hlen⟩),
          if_pos (show j ≤ j ∧ j < j + (rest.length + 1) ∧ j < oscs.length by omega)]
        simp
      · rw [if_neg (show ¬(j = j ∧ j < oscs.length) from fun h => hlen h.2),
          if_neg (show ¬(j ≤ j ∧ j < j + (rest.length + 1) ∧ j < oscs.length) by omega)]
    · rw [if_neg (show ¬(j = nth ∧ nth < oscs.length) from fun h => hj h.1)]
      by_cases hcond : nth + 1 ≤ j ∧ j < nth + 1 + rest.length ∧ j < oscs.length
      · rw [if_pos hcond,
          if_pos (show nth ≤ j ∧ j < nth + (rest.length + 1) ∧ j < oscs.length by omega)]
        have hd : j - nth = (j - (nth + 1)) + 1 := by omega
        rw [hd]
        simp
      · rw [if_neg hcond,
          if_neg (show ¬(nth ≤ j ∧ j < nth + (rest.length + 1) ∧ j < oscs.length) by
            omega)]

theorem tuneSilentLoop_getD (W : ℕ) :
    ∀ (entries : List (ℕ × ℚ)) (oscs : List OscState) (nth j : ℕ),
      (tuneSilentLoop W entries oscs nth).getD j defaultOsc =
        if nth ≤ j ∧ j < nth + entries.length ∧ j < oscs.length then
          WTOscillator.tune_and_set_amp W (oscs.getD j defaultOsc) 0 0
        else oscs.getD j defaultOsc := by
  intro entries
  induction entries with
  | nil =>
    intro oscs nth j
    rw [tuneSilentLoop]
    rw [if_neg (by simp only [List.length_nil]; omega)]
  | cons e rest ih =>
    intro oscs nth j
    rw [tuneSilentLoop, ih, List.length_set]
    simp only [getD_set_char, List.length_cons]
    by_cases hj : j = nth
    · subst hj
      rw [if_neg (show ¬(j + 1 ≤ j ∧ j < j + 1 + rest.length ∧ j < oscs.length) by omega)]
      by_cases hlen : j < oscs.length
      · rw [if_pos (show j = j ∧ j < oscs.length from ⟨rfl, hlen⟩),
          if_pos (show j ≤ j ∧ j < j + (rest.length + 1) ∧ j < oscs.length by omega)]
      · rw [if_neg (show ¬(j = j ∧ j < oscs.length) from fun h => hlen h.2),
          if_neg (show ¬(j ≤ j ∧ j < j + (rest.length + 1) ∧ j < oscs.length) by omega)]
    · rw [if_neg (show ¬(j = nth ∧ nth < oscs.length) from fun h => hj h.1)]
      by_cases hcond : nth + 1 ≤ j ∧ j < nth + 1 + rest.length ∧ j < oscs.length
      · rw [if_pos hcond,
          if_pos (show nth ≤ j ∧ j < nth + (rest.length + 1) ∧ j < oscs.length by omega)]
      · rw [if_neg hcond,
          if_neg (show ¬(nth ≤ j ∧ j < nth + (rest.length + 1) ∧ j < oscs.length) by
            omega)]

/-- C6: with `voices ≤ NUM_OSCS` (as guaranteed by `set_voices`, which clamps into
`[0, max_oscillators]`) and a bin-magnitude array at least as long as the bank,
`tune_oscillators_to_fft` tunes exactly the first `k = min(voices, NUM_OSCS)`
oscillators — the `i`-th to frequency `bin_mag[i].index * freq_resolution +
frequency_offset` with amplitude `bin_mag[i].mag * amp_correction` (where
`freq_resolution = f_s / N` and `amp_correction = 2 / N` at instantiation) — and calls
`tune_and_set_amp(0, 0)` on each of the remaining `NUM_OSCS - k` oscillators, so they
glide to silence. -/
theorem C6_tune_oscillators_mapping (W : ℕ) (fr off ac : ℚ) (oscs : List OscState)
    (binMag : List (ℕ × ℚ)) (voices j : ℕ)
    (hv : voices ≤ oscs.length) (hb : oscs.length ≤ binMag.length)
    (hj : j < oscs.length) :
    (∀ v : ℕ, set_voices v ≤ max_oscillators) ∧
      (tune_oscillators_to_fft W fr off ac oscs binMag voices).getD j defaultOsc =
        (if j < min voices oscs.length then
          WTOscillator.tune_and_set_amp W (oscs.getD j defaultOsc)
            (((binMag.getD j (0, 0)).1 : ℚ) * fr + off) ((binMag.getD j (0, 0)).2 * ac)
        else WTOscillator.tune_and_set_amp W (oscs.getD j defaultOsc) 0 0) := by
  refine ⟨fun v => min_le_right _ _, ?_⟩
  unfold tune_oscillators_to_fft
  simp only
  have hmin : min voices oscs.length = voices := min_eq_left hv
  rw [hmin]
  have hlen1 : (tuneActiveLoop W fr off ac (binMag.take voices) oscs 0).length
      = oscs.length := tuneActiveLoop_length W fr off ac _ _ _
  have hltake : (binMag.take voices).length = voices :=
    List.length_take_of_le (le_trans hv hb)
  have hstake : ((binMag.drop voices).take (oscs.length - voices)).length
      = oscs.length - voices := by
    rw [List.length_take, List.length_drop]
    omega
  rw [tuneSilentLoop_getD, hstake, hlen1, tuneActiveLoop_getD, hltake]
  by_cases hcase : j < voices
  · rw [if_neg (by omega), if_pos ⟨by omega, by omega, hj⟩, if_pos hcase]
    have : (binMag.take voices).getD (j - 0) (0, 0) = binMag.getD j (0, 0) := by
      rw [List.getD_eq_getD_get?, List.getD_eq_getD_get?, Nat.sub_zero,
        List.get?_take hcase]
    rw [this]
  · rw [if_pos ⟨by omega, by omega, hj⟩, if_neg (by omega), if_neg hcase]

/-- Witness for `C6_tune_oscillators_mapping`: a 2-oscillator bank, voices = 1,
queried at the silent position `j = 1`. -/
theorem C6_witness :
    (1 ≤ ([defaultOsc, defaultOsc] : List OscState).length ∧
        ([defaultOsc, defaultOsc] : List OscState).length
          ≤ ([(3, 8), (1, 2)] : List (ℕ × ℚ)).length ∧
        1 < ([defaultOsc, defaultOsc] : List OscState).length) ∧
      (tune_oscillators_to_fft 16 1 0 1 [defaultOsc, defaultOsc] [(3, 8), (1, 2)] 1).getD
          1 defaultOsc =
        (if 1 < min 1 ([defaultOsc, defaultOsc] : List OscState).length then
          WTOscillator.tune_and_set_amp 16
            (([defaultOsc, defaultOsc] : List OscState).getD 1 defaultOsc)
            (((([(3, 8), (1, 2)] : List (ℕ × ℚ)).getD 1 (0, 0)).1 : ℚ) * 1 + 0)
            ((([(3, 8), (1, 2)] : List (ℕ × ℚ)).getD 1 (0, 0)).2 * 1)
        else WTOscillator.tune_and_set_amp 16
          (([defaultOsc, defaultOsc] : List OscState).getD 1 defaultOsc) 0 0) :=
  ⟨⟨by norm_num, by norm_num, by norm_num⟩,
    (C6_tune_oscillators_mapping 16 1 0 1 [defaultOsc, defaultOsc] [(3, 8), (1, 2)] 1 1
      (by norm_num) (by norm_num) (by norm_num)).2⟩



/-! ## BufferManager (`process_daw_chunk` in `inc/SpctBufferManager.h`)

Only the sample-flow skeleton matters here: the write index
`daw_chunk_write_index` (each `fill_in_and_out_buffers()` call consumes input
sample `daw_chunk[w]`, overwrites that same slot with the filtered oscillator
output, and increments `w`), the ring-buffer cursor, and the `m_initiate_fft`
flag.  `action_done` is the analysis thread's readiness flag, modelled as a
constant boolean over the call (`true` = FFT worker always ready, the case most
favourable to the claim). -/

/-- `steps_needed = t_size > FFT_SIZE ? ceil(float(t_size) / FFT_SIZE) : 1`
(the float division is exact in the modelled range). -/
def stepsNeeded (fftSize n : ℕ) : ℕ :=
  if fftSize < n then (n + fftSize - 1) / fftSize else 1

/-- The inner `while (!m_initiate_fft && daw_chunk_write_index < t_size)` loop:
each iteration consumes and overwrites slot `w`, increments `w`, then sets
`m_initiate_fft = advance()`.  `fuel` bounds the iteration count (`w` strictly
increases towards `n`, so fuel `n` always suffices).  State:
`(daw_chunk_write_index, ring cursor, m_initiate_fft)`. -/
def fillWhileLoop (d n : ℕ) : ℕ → ℕ × ℕ × Bool → ℕ × ℕ × Bool
  | 0, s => s
  | fuel + 1, (w, r, f) =>
    if f = false ∧ w < n then
      fillWhileLoop d n fuel (w + 1, (advanceIdx d r).1, (advanceIdx d r).2)
    else (w, r, f)

/-- The `for (step = 0; step < steps_needed; ++step)` loop: run the inner while,
then `if (m_initiate_fft && action_done) { copy_to_output(); notify_one();
m_initiate_fft = false; }`. -/
def stepForLoop (d n : ℕ) (actionDone : Bool) : ℕ → ℕ × ℕ × Bool → ℕ × ℕ × Bool
  | 0, s => s
  | step + 1, s =>
    let s1 := fillWhileLoop d n n s
    let f2 := if s1.2.2 = true ∧ actionDone = true then false else s1.2.2
    stepForLoop d n actionDone step (s1.1, s1.2.1, f2)

/-- The trailing `if (steps_needed == 1)` while loop (its `advance()` result is
discarded). -/
def tailWhileLoop (d n : ℕ) : ℕ → ℕ × ℕ → ℕ × ℕ
  | 0, s => s
  | fuel + 1, (w, r) =>
    if w < n then tailWhileLoop d n fuel (w + 1, (advanceIdx d r).1) else (w, r)

/-- `BufferManager::process_daw_chunk(daw_chunk, t_size = n)` for
`FFT_SIZE = 2 ^ d`, reduced to its sample flow: returns
`(daw_chunk_write_index, ring cursor, m_initiate_fft)` at function return, given
the cursor `r0` and flag `f0` at entry.  The first component is the number of
input samples consumed — equivalently, `daw_chunk[0 .. w)` are exactly the slots
overwritten with output. -/
def process_daw_chunk (d : ℕ) (actionDone : Bool) (n r0 : ℕ) (f0 : Bool) :
    ℕ × ℕ × Bool :=
  let steps := stepsNeeded (2 ^ d) n
  let s1 := stepForLoop d n actionDone steps (0, r0, f0)
  if steps = 1 then
    let s2 := tailWhileLoop d n n (s1.1, s1.2.1)
    (s2.1, s2.2, s1.2.2)
  else s1

set_option maxHeartbeats 4000000 in
set_option maxRecDepth 100000 in
/-- C1 (code bug): at the deployed FFT size `N = 1024` (`d = 10`), from a freshly
prepared manager (cursor 0, `m_initiate_fft = false`) with the analysis thread always
ready (`action_done = true`), a chunk of `n = 2 N = 2048` samples has only its first
`1536` slots consumed and overwritten: `steps_needed = 2`, each of the two `for`
iterations ends at a view-size wrap (after 512 resp. 1536 samples), and the trailing
loop that would finish the chunk only runs when `steps_needed == 1`, so the final 512
samples are neither read nor replaced. -/
theorem C1_chunk_drops_samples :
    (process_daw_chunk 10 true 2048 0 false).1 = 1536 ∧ (1536 : ℕ) ≠ 2048 := by
  constructor
  · rfl
  · decide



/-! ## Instance controller (`src/SpctInstanceController.cpp`, `unnamed/part_010`) -/

/-- `OscWaveform` from `inc/SpctDomainSpecific.h`. -/
inductive OscWaveform where
  | sine
  | triangle
  | saw
  | square
  deriving DecidableEq

/-- `FxParameters` from `inc/SpctFxParameters.h`. -/
structure FxParameters where
  waveform_selection : OscWaveform
  filter_cutoff : ℚ
  fft_threshold : ℚ
  frequency_offset : ℚ
  gain : ℚ
  glide_steps : ℕ
  voices : ℕ
  freeze : Bool
  continuous_tuning : Bool
  tune_interval_ms : ℕ

/-- The explicit controller-level state relevant to C7 and C8: the circular buffer,
the oscillator bank with its stack-level fields (`m_sampling_freq`,
`m_freq_resolution`, `m_freq_offset` of `ResynthOscs`), the engine's voices and
threshold, and the `BufferManager` fields (`m_sampling_freq`, the last `set_cutoff`
argument — `α = 1 − exp(−2π·cutoff/f_s)` is transcendental, so the state records the
cutoff that determines it — the clamped gain, and `m_previous_sample`, the one-pole
LPF state). -/
structure ControllerState where
  ring : CircularSampleBuffer
  oscs : List OscState
  waveform : OscWaveform
  voices : ℕ
  threshold : ℚ
  cutoff : ℚ
  gain : ℚ
  prevSample : ℚ
  bmSamplingFreq : ℚ
  stackSamplingFreq : ℚ
  freqResolution : ℚ
  freqOffset : ℚ
  ampCorrection : ℚ

/-- `InstanceController::update_parameters` as implemented in
`src/SpctInstanceController.cpp`: waveform, glide steps, voices, threshold, cutoff
and gain are applied; `params.freeze` and `params.frequency_offset` are left as a
`///` comment and never read. -/
def update_parameters (s : ControllerState) (p : FxParameters) : ControllerState :=
  { s with
    waveform := p.waveform_selection
    oscs := s.oscs.map (fun o => WTOscillator.set_glide_steps o p.glide_steps)
    voices := set_voices p.voices
    threshold := p.fft_threshold
    cutoff := p.filter_cutoff
    gain := clampQ p.gain 0 2 }

/-- The oscillator retune performed after an FFT on the
`fft_calculation` → `oscillator_tuning` path (continuous tuning, the default):
the freshly computed bin map is handed to `tune_oscillators_to_fft` with the
engine's current voices count.  No freeze flag is consulted anywhere on this path. -/
def fft_cycle_apply (W : ℕ) (s : ControllerState) (binMag : List (ℕ × ℚ)) :
    ControllerState :=
  { s with
    oscs := tune_oscillators_to_fft W s.freqResolution s.freqOffset s.ampCorrection
      s.oscs binMag s.voices }

/-- A concrete controller state for the C7 evaluation: one oscillator, frequency
resolution 1, amplitude correction 1. -/
def cexController : ControllerState :=
  { ring := clearedBuffer
    oscs := [defaultOsc]
    waveform := OscWaveform.sine
    voices := 1
    threshold := 1
    cutoff := 100
    gain := 1
    prevSample := 0
    bmSamplingFreq := 44100
    stackSamplingFreq := 44100
    freqResolution := 1
    freqOffset := 0
    ampCorrection := 1 }

/-- Concrete host parameters for the C7 evaluation, with the given freeze flag. -/
def cexParams (fz : Bool) : FxParameters :=
  { waveform_selection := OscWaveform.sine
    filter_cutoff := 100
    fft_threshold := 1
    frequency_offset := 0
    gain := 1
    glide_steps := 1
    voices := 1
    freeze := fz
    continuous_tuning := true
    tune_interval_ms := 100 }

/-- C7 (code bug): the freeze parameter has no effect.  `update_parameters`
produces the same state for `freeze = true` as for `freeze = false` (the field is
never read — the source leaves it as the comment `/// params.freeze`), and the
FFT → retune path consults no freeze flag: after `update_parameters` with
`freeze = true`, the next FFT cycle still retunes oscillator 0 (its frequency
target changes from 0 to the target for bin 3). -/
theorem C7_freeze_has_no_effect :
    (∀ (s : ControllerState) (p : FxParameters),
        update_parameters s
            { p with freeze := true }
          = update_parameters s
            { p with freeze := false }) ∧
      ((fft_cycle_apply 16 (update_parameters cexController (cexParams true))
            [(3, 8)]).oscs.getD 0 defaultOsc).prevIndexIncrement
        ≠ ((update_parameters cexController (cexParams true)).oscs.getD 0
            defaultOsc).prevIndexIncrement := by
  constructor
  · intro s p
    rfl
  · norm_num [fft_cycle_apply, update_parameters, cexController, cexParams,
      tune_oscillators_to_fft, tuneActiveLoop, tuneSilentLoop,
      WTOscillator.tune_and_set_amp, WTOscillator.incrementTarget,
      WTOscillator.set_glide_steps, set_voices, max_oscillators, clampQ,
      mkOsc, defaultOsc]

/-- `InstanceController::reset` (`unnamed/part_010`) over the modelled state, for
FFT size `N` and the controller's current sampling frequency `fs` (which `reset`
does not change, so both calls of a double reset see the same `fs`):
`m_circular_buffer_ptr->clear_arrays()`, then `ResynthOscs::reset(fs)` (frequency
offset to 0, stack sampling frequency and `m_freq_resolution = fs / N`
recomputed, every oscillator reset), then `BufferManager::reset(fs)`
(`m_sampling_freq = fs`, `m_previous_sample = 0`).  The `CalculationEngine`
reset touches only the bin-map array and sync flags, which lie outside the
state compared here (its implementation header is not part of the sources). -/
def controller_reset (N : ℕ) (fs : ℚ) (s : ControllerState) : ControllerState :=
  { s with
    ring := CircularSampleBuffer.clear_arrays s.ring
    freqOffset := 0
    stackSamplingFreq := fs
    freqResolution := fs / (N : ℚ)
    oscs := s.oscs.map (fun o => WTOscillator.reset o fs)
    bmSamplingFreq := fs
    prevSample := 0 }

/-- C8: `reset()` is idempotent — for every controller state (in particular every
reachable one), two consecutive `reset()` calls leave the ring-buffer arrays and
cursor, every oscillator's phase, increment, amplitude, glide fractions and limits,
and the buffer manager's previous-sample LPF state identical to a single `reset()`:
every field written by `reset` is written to a value independent of the prior state,
and every field it skips (for an oscillator: `m_prev_amplitude`,
`m_glide_resolution`) is preserved by both calls. -/
theorem C8_reset_idempotent (N : ℕ) (fs : ℚ) (s : ControllerState) :
    controller_reset N fs (controller_reset N fs s) = controller_reset N fs s := by
  unfold controller_reset
  congr 1
  rw [List.map_map]
  exact List.map_congr_left fun o _ => rfl



/-- Witness for `C3_peak_map` at a one-bin spectrum. -/
theorem C3_witness :
    (calculate_max_map [(5 : ℚ)] [((0 : ℕ), (0 : ℚ))] 0).1
      = List.countP (fun m => decide (clippedThreshold 0 ≤ m)) [(5 : ℚ)] :=
  (C3_peak_map [5] [(0, 0)] 0).1

/-- Witness for `C4_applied_threshold` at threshold 2 and a one-bin spectrum. -/
theorem C4_witness :
    ((0, (5 : ℚ)) ∈ collectBins 2 0 [5] ↔ clippedThreshold 2 ≤ 5) :=
  (C4_applied_threshold 2).2.2 [5] 0 5 rfl


end SpectralDev
